import Mathlib

/-!
Verification of the external-tool invocation and result-parsing subsystem of
the EasyOCR GUI (`src/gui/src/ocr.rs`, `src/gui/src/settings.rs`).

Strings are modelled as `List Char`.  Rust `f32` values are modelled as exact
rationals (`ℚ`); the numeric-literal parser models the finite-decimal fragment
of Rust's `f32::from_str` grammar (optional sign, digits, optional fraction),
which covers every numeric token the external tool emits (the exponent and
inf/nan forms never occur in its output and are irrelevant to the claims).
The `{:.4}` float formatter is modelled as exact decimal rounding to four
places (for `f32` inputs no tie can occur at the fourth decimal, so the
rounding direction of ties is immaterial).  Subprocess behaviour (probe
results, spawn outcomes) is modelled as an explicit environment record.
-/

abbrev Str := List Char

/-- Model of Rust `char::is_whitespace`, restricted to the ASCII whitespace
characters that can occur in the tool's output. -/
def isWS (c : Char) : Bool := c = ' ' ∨ c = '\t' ∨ c = '\n' ∨ c = '\r'

/-- Model of Rust `str::trim`. -/
def trimStr (s : Str) : Str := ((s.dropWhile isWS).reverse.dropWhile isWS).reverse

/-- Model of Rust `str::strip_prefix(c)` for a single character. -/
def stripPreCh (c : Char) : Str → Option Str
  | [] => none
  | c' :: cs => if c' = c then some cs else none

/-- Model of Rust `str::strip_suffix(c)` for a single character. -/
def stripSufCh (c : Char) (s : Str) : Option Str :=
  (stripPreCh c s.reverse).map List.reverse

/-- Model of Rust `str::strip_prefix(pat)` for a multi-character pattern. -/
def stripPreL : Str → Str → Option Str
  | [], s => some s
  | _ :: _, [] => none
  | p :: ps, c :: cs => if c = p then stripPreL ps cs else none

/-- Model of Rust `str::strip_suffix(pat)` for a multi-character pattern. -/
def stripSufL (pat s : Str) : Option Str :=
  (stripPreL pat.reverse s.reverse).map List.reverse

/-- Model of `s.find("]]")` combined with the two slicings
`&s[..i+2]` / `&s[i+2..]` used in `parse_line`: returns the prefix up to and
including the first occurrence of `]]`, and the remaining suffix. -/
def findSplit2 : Str → Option (Str × Str)
  | [] => none
  | c :: cs =>
    if c = ']' ∧ cs.head? = some ']' then some ([']', ']'], cs.tail)
    else (findSplit2 cs).map (fun pr => (c :: pr.1, pr.2))

/-- True iff the string contains two consecutive `]` characters. -/
def hasDB : Str → Bool
  | [] => false
  | c :: cs => (c = ']' ∧ cs.head? = some ']') || hasDB cs

/-- Model of `rest.rfind(',')` combined with the slicings
`&rest[..i]` / `&rest[i+1..]`: splits at the last comma. -/
def splitLastComma : Str → Option (Str × Str)
  | [] => none
  | c :: cs =>
    match splitLastComma cs with
    | some pr => some (c :: pr.1, pr.2)
    | none => if c = ',' then some ([], cs) else none

/-- Model of Rust `str::split` on a character predicate (used for `split(',')`,
the language separators and `\n`); every separator occurrence yields a cut,
empty pieces included. -/
def splitP (p : Char → Bool) : Str → List Str
  | [] => [[]]
  | c :: cs =>
    let r := splitP p cs
    if p c then [] :: r else (c :: r.headD []) :: r.tail

/-- Model of `inner.split("], [")` as used by `parse_bbox` (the separator
pattern is matched greedily left to right, exactly as Rust substring split). -/
def splitSep : Str → List Str
  | [] => [[]]
  | ']' :: ',' :: ' ' :: '[' :: rest => [] :: splitSep rest
  | c :: cs => (c :: (splitSep cs).headD []) :: (splitSep cs).tail

/-- Numeric value of a digit string, most significant digit first. -/
def digitsVal (ds : Str) : ℕ := ds.foldl (fun n c => 10 * n + (c.toNat - 48)) 0

/-- Value of a fractional digit string (the digits after the decimal point). -/
def fracVal (ds : Str) : ℚ := (digitsVal ds : ℚ) / (10 : ℚ) ^ ds.length

/-- Unsigned part of the `f32::from_str` model: digits with an optional single
decimal point, at least one digit overall. -/
def parseUnsignedF (s : Str) : Option ℚ :=
  let ip := s.takeWhile Char.isDigit
  let rest := s.dropWhile Char.isDigit
  match rest with
  | [] => if ip = [] then none else some (digitsVal ip)
  | r :: fr =>
    if r = '.' then
      if fr.all Char.isDigit ∧ (ip ≠ [] ∨ fr ≠ []) then
        some ((digitsVal ip : ℚ) + fracVal fr)
      else none
    else none

/-- Model of Rust `str::parse::<f32>()` on the finite-decimal fragment of its
grammar (see the module comment). -/
def parseF32 (s : Str) : Option ℚ :=
  if s.head? = some '+' then parseUnsignedF s.tail
  else if s.head? = some '-' then (parseUnsignedF s.tail).map (fun q => -q)
  else parseUnsignedF s

/-- The parsed value of a numeric token (defaulting to 0; only used on tokens
known to parse). -/
def qval (s : Str) : ℚ := (parseF32 s).getD 0

/-- A quadrilateral of four corner points, as in `OcrLine::bbox`. -/
structure BBox where
  p1 : ℚ × ℚ
  p2 : ℚ × ℚ
  p3 : ℚ × ℚ
  p4 : ℚ × ℚ
deriving DecidableEq, Repr

/-- Model of the Rust struct `OcrLine`. -/
structure OcrLine where
  bbox : BBox
  text : Str
  confidence : ℚ
deriving DecidableEq, Repr

/-- The quote characters stripped from parsed text. -/
def isQuoteCh (c : Char) : Bool := c = '\'' ∨ c = '"'

/-- Model of `text_part.trim_start_matches(['\'', '"']).trim_end_matches(['\'', '"'])`:
every leading and every trailing quote character is removed. -/
def stripQuotes (t : Str) : Str :=
  ((t.dropWhile isQuoteCh).reverse.dropWhile isQuoteCh).reverse

/-- Model of one coordinate pair inside `parse_bbox`: `p.split(',')`, expect
exactly two pieces, trim and parse each. -/
def parsePoint (p : Str) : Option (ℚ × ℚ) :=
  match splitP (fun c => c = ',') p with
  | [a, b] =>
    match parseF32 (trimStr a), parseF32 (trimStr b) with
    | some x, some y => some (x, y)
    | _, _ => none
  | _ => none

/-- Model of `parse_bbox` in `ocr.rs`. -/
def parseBBox (s : Str) : Option BBox :=
  match stripPreL ['[', '['] s with
  | none => none
  | some inner0 =>
    match stripSufL [']', ']'] inner0 with
    | none => none
    | some inner =>
      match splitSep inner with
      | [a, b, c, d] =>
        match parsePoint a, parsePoint b, parsePoint c, parsePoint d with
        | some w, some x, some y, some z => some ⟨w, x, y, z⟩
        | _, _, _, _ => none
      | _ => none

/-- Model of the outer-delimiter stripping at the top of `parse_line`:
`(...)` is tried first, then `[...]`. -/
def stripOuter (s : Str) : Option Str :=
  match (stripPreCh '(' s).bind (stripSufCh ')') with
  | some inner => some inner
  | none => (stripPreCh '[' s).bind (stripSufCh ']')

/-- Model of `parse_line` in `ocr.rs`. -/
def parseLine (input : Str) : Option OcrLine :=
  let s := trimStr input
  match stripOuter s with
  | none => none
  | some s1 =>
    match findSplit2 s1 with
    | none => none
    | some (bboxStr, after) =>
      match stripPreCh ',' (trimStr after) with
      | none => none
      | some rest0 =>
        let rest := trimStr rest0
        match parseBBox bboxStr with
        | none => none
        | some bb =>
          let tc : Str × ℚ :=
            match splitLastComma rest with
            | some pr =>
              match parseF32 (trimStr pr.2) with
              | some conf => (trimStr pr.1, conf)
              | none => (rest, 0)
            | none => (rest, 0)
          some ⟨bb, stripQuotes tc.1, tc.2⟩

/-- Model of Rust `str::lines`: split on `\n`, drop a final empty piece, and
strip one trailing `\r` from every newline-terminated piece. -/
def linesOf (s : Str) : List Str :=
  let ps := splitP (fun c => c = '\n') s
  let strip1 : Str → Str := fun l => if l.getLast? = some '\r' then l.dropLast else l
  match ps.getLast? with
  | none => []
  | some lastPiece =>
    if lastPiece = [] then ps.dropLast.map strip1
    else ps.dropLast.map strip1 ++ [lastPiece]

/-- Model of `parse_easyocr_output` in `ocr.rs`. -/
def parseEasyocrOutput (output : Str) : List OcrLine :=
  (linesOf output).filterMap (fun raw =>
    let t := trimStr raw
    if t = [] then none else parseLine t)

/-- The language separator set of `parse_languages` (ASCII and full-width
comma, space, ASCII and full-width semicolon). -/
def langSep (c : Char) : Bool := c = ',' ∨ c = '，' ∨ c = ' ' ∨ c = ';' ∨ c = '；'

/-- Model of `parse_languages` in `ocr.rs`. -/
def parseLanguages (raw : Str) : List Str :=
  let langs := ((splitP langSep raw).map trimStr).filter (fun t => t ≠ [])
  if langs = [] then ["ch_sim".toList, "en".toList] else langs

/-- Model of `expand_home_dir` in `ocr.rs`; the `HOME` environment variable is
passed explicitly as an optional value. -/
def expandHomeDir (home : Option Str) (path : Str) : Str :=
  if path = "~".toList then home.getD path
  else
    match stripPreL "~/".toList path with
    | some rest =>
      match home with
      | some h => h ++ "/".toList ++ rest
      | none => path
    | none => path

/-- Model of the Rust enum `Decoder` in `settings.rs`. -/
inductive Decoder where
  | greedy
  | beamSearch
  | wordBeamSearch
deriving DecidableEq, Repr

/-- Model of `Decoder::as_str`. -/
def Decoder.asStr : Decoder → Str
  | .greedy => "greedy".toList
  | .beamSearch => "beamsearch".toList
  | .wordBeamSearch => "wordbeamsearch".toList

/-- Model of the Rust enum `UiLanguage` in `settings.rs` (not consulted by the
OCR invocation path, carried for completeness). -/
inductive UiLanguage where
  | chinese
  | english
deriving DecidableEq, Repr

/-- Model of the Rust struct `Settings` in `settings.rs`; `u32` fields are
naturals, `f32` fields are exact rationals, `String` fields are `Str`. -/
structure Settings where
  languages : Str
  gpu : Bool
  workers : ℕ
  decoder : Decoder
  beam_width : ℕ
  batch_size : ℕ
  min_size : ℕ
  text_threshold : ℚ
  low_text : ℚ
  link_threshold : ℚ
  contrast_ths : ℚ
  adjust_contrast : ℚ
  paragraph : Bool
  quantize : Bool
  add_margin : ℚ
  model_storage_directory : Str
  easyocr_exe : Str
  ui_language : UiLanguage

/-- Model of `Settings::default` in `settings.rs`. -/
def defaultSettings : Settings where
  languages := "en".toList
  gpu := false
  workers := 0
  decoder := .greedy
  beam_width := 5
  batch_size := 1
  min_size := 20
  text_threshold := 7/10
  low_text := 4/10
  link_threshold := 4/10
  contrast_ths := 1/10
  adjust_contrast := 5/10
  paragraph := false
  quantize := true
  add_margin := 1/10
  model_storage_directory := []
  easyocr_exe := []
  ui_language := .chinese

/-- Decimal digit characters of a natural number, modelling Rust
`u32::to_string`. -/
def natToChars (n : ℕ) : Str :=
  if _h : n < 10 then [Nat.digitChar n]
  else natToChars (n / 10) ++ [Nat.digitChar (n % 10)]
termination_by n
decreasing_by exact Nat.div_lt_self (by omega) (by omega)

/-- Exactly four zero-padded decimal digits of `m % 10000`-sized values; the
fractional block of the `{:.4}` formatter. -/
def pad4 (m : ℕ) : Str :=
  [Nat.digitChar (m / 1000 % 10), Nat.digitChar (m / 100 % 10),
   Nat.digitChar (m / 10 % 10), Nat.digitChar (m % 10)]

/-- Model of Rust `format!("{:.4}", x)` on the exact rational value: round the
magnitude to four decimal places and print sign, integer part, a dot, and four
fractional digits (for values arising from `f32` no tie can occur, so the tie
direction of `round` is immaterial). -/
def format4 (q : ℚ) : Str :=
  let mn : ℕ := (round (|q| * 10000) : ℤ).toNat
  (if q < 0 then ['-'] else []) ++ natToChars (mn / 10000) ++ '.' :: pad4 (mn % 10000)

/-- Serialization of booleans as the tokens `True`/`False`. -/
def boolTok (b : Bool) : Str := if b then "True".toList else "False".toList

/-- The fixed module-launch argument pair `["-m", "easyocr.cli"]`. -/
def moduleArgs : List Str := ["-m".toList, "easyocr.cli".toList]

/-- Model of `resolve_easyocr_cmd`; the outcome of `probe_cmd` (a subprocess
run) is supplied as the oracle `probe`. -/
def resolveEasyocrCmd (probe : Str → List Str → Bool) (configured : Str) :
    Option (Str × List Str) :=
  if configured ≠ [] then
    if probe configured [] then some (configured, [])
    else if probe configured moduleArgs then some (configured, moduleArgs)
    else none
  else if probe "easyocr".toList [] then some ("easyocr".toList, [])
  else if probe "python3".toList moduleArgs then some ("python3".toList, moduleArgs)
  else if probe "python".toList moduleArgs then some ("python".toList, moduleArgs)
  else none

/-- The argument vector built by `run_ocr_sync` (the sequence of `cmd.arg` /
`cmd.args` calls after `Command::new`), including the resolved command's
mandatory module-launch arguments. -/
def buildCmd (home : Option Str) (imagePath : Str) (st : Settings)
    (preArgs : List Str) : List Str :=
  let args := preArgs
  let args := args ++ ["-l".toList]
  let args := args ++ parseLanguages st.languages
  let args := args ++ ["-f".toList, imagePath]
  let args := args ++ ["--gpu".toList, boolTok st.gpu]
  let args := args ++ ["--workers".toList, natToChars st.workers]
  let args := args ++ ["--decoder".toList, st.decoder.asStr]
  let args := args ++ ["--beamWidth".toList, natToChars st.beam_width]
  let args := args ++ ["--batch_size".toList, natToChars st.batch_size]
  let args := args ++ ["--text_threshold".toList, format4 st.text_threshold]
  let args := args ++ ["--low_text".toList, format4 st.low_text]
  let args := args ++ ["--link_threshold".toList, format4 st.link_threshold]
  let args := args ++ ["--contrast_ths".toList, format4 st.contrast_ths]
  let args := args ++ ["--adjust_contrast".toList, format4 st.adjust_contrast]
  let args := args ++ ["--min_size".toList, natToChars st.min_size]
  let args := args ++ ["--paragraph".toList, boolTok st.paragraph]
  let args := args ++ ["--quantize".toList, boolTok st.quantize]
  let args := args ++ ["--add_margin".toList, format4 st.add_margin]
  let args := args ++ ["--detail".toList, "1".toList]
  if st.model_storage_directory ≠ [] then
    args ++ ["--model_storage_directory".toList,
             expandHomeDir home st.model_storage_directory]
  else args

/-- Outcome of `cmd.output()`: either an OS spawn error or a finished process
with a success flag and captured stdout/stderr (after lossy UTF-8 decoding). -/
inductive SpawnResult where
  | spawnErr (e : Str)
  | finished (success : Bool) (stdoutS stderrS : Str)

/-- The subprocess environment: results of `probe_cmd` and of `cmd.output()`
for a given program and argument vector. -/
structure ProcEnv where
  probe : Str → List Str → Bool
  output : Str → List Str → SpawnResult

/-- Install guidance appended to the resolution / spawn failure messages. -/
def installHint : Str := "\n\nMake sure EasyOCR is installed:\n  pip install easyocr".toList

/-- The resolution-failure message of `run_ocr_sync`. -/
def notFoundMsg (configured : Str) : Str :=
  "EasyOCR command not found (tried ".toList ++
    (if configured = [] then "'easyocr' and 'python -m easyocr.cli'".toList
     else "'".toList ++ configured ++ "'".toList) ++
    ").".toList ++ installHint

/-- The spawn-failure message of `run_ocr_sync`. -/
def spawnFailMsg (exe e : Str) : Str :=
  "Failed to run '".toList ++ exe ++ "': ".toList ++ e ++ installHint

/-- The non-zero-exit message of `run_ocr_sync` (stderr first, then stdout). -/
def exitFailMsg (stderrS stdoutS : Str) : Str :=
  "EasyOCR exited with error:\n".toList ++ stderrS ++ "\n".toList ++ stdoutS

/-- Model of the Rust struct `OcrResult`. -/
structure OcrResultM where
  lines : List OcrLine
  error : Option Str
deriving DecidableEq, Repr

/-- Model of `run_ocr_sync` in `ocr.rs`, with the subprocess behaviour
abstracted as `env` and the `HOME` variable as `home`. -/
def runOcrSync (env : ProcEnv) (home : Option Str) (imagePath : Str)
    (st : Settings) : OcrResultM :=
  match resolveEasyocrCmd env.probe st.easyocr_exe with
  | none => ⟨[], some (notFoundMsg st.easyocr_exe)⟩
  | some (exe, preArgs) =>
    match env.output exe (buildCmd home imagePath st preArgs) with
    | .spawnErr e => ⟨[], some (spawnFailMsg exe e)⟩
    | .finished success stdoutS stderrS =>
      if success then ⟨parseEasyocrOutput stdoutS, none⟩
      else ⟨[], some (exitFailMsg stderrS stdoutS)⟩

/-- The character alphabet of a numeric token: digits, signs, decimal point. -/
def numChars : Str := "0123456789-+.".toList

/-- A well-formed numeric token as it appears in a record line: nonempty,
drawn from the numeric alphabet, and accepted by the float parser. -/
def numTokOk (t : Str) : Bool :=
  t ≠ [] ∧ t.all (fun c => c ∈ numChars) ∧ (parseF32 t).isSome

/-- Rendering of one bbox corner `x, y` as the external tool prints it. -/
def renderPoint (x y : Str) : Str := x ++ ", ".toList ++ y

/-- The separator between bbox corners. -/
def sepBr : Str := "], [".toList

/-- Rendering of a bbox `[[x1, y1], [x2, y2], [x3, y3], [x4, y4]]`. -/
def renderBBox (x1 y1 x2 y2 x3 y3 x4 y4 : Str) : Str :=
  "[[".toList ++ renderPoint x1 y1 ++ sepBr ++ renderPoint x2 y2 ++ sepBr ++
    renderPoint x3 y3 ++ sepBr ++ renderPoint x4 y4 ++ "]]".toList

/-- Rendering of a standard-shape record line `(<bbox>, <q>text<q>, <conf>)`. -/
def renderStandard (bb : Str) (q : Char) (text conf : Str) : Str :=
  "(".toList ++ bb ++ ", ".toList ++ (q :: (text ++ [q])) ++ ", ".toList ++
    conf ++ ")".toList

/-- Rendering of a paragraph-shape record line `[<bbox>, <q>text<q>]`. -/
def renderParagraph (bb : Str) (q : Char) (text : Str) : Str :=
  "[".toList ++ bb ++ ", ".toList ++ (q :: (text ++ [q])) ++ "]".toList

/-- The bbox value determined by eight numeric tokens. -/
def bboxVal (x1 y1 x2 y2 x3 y3 x4 y4 : Str) : BBox :=
  ⟨(qval x1, qval y1), (qval x2, qval y2), (qval x3, qval y3), (qval x4, qval y4)⟩

/-- Spec-shape predicate (written from the spec's grammar, section 4.5): a
single- or double-quoted text chunk, i.e. at least two characters with the
same quote character at both ends. -/
def isQuotedText (t : Str) : Bool :=
  match t with
  | c :: rest => isQuoteCh c ∧ rest ≠ [] ∧ rest.getLast? = some c
  | [] => false

/-- Spec-shape predicate: a confidence token, a bare decimal in the unit
interval. -/
def confTok01 (t : Str) : Bool :=
  match parseF32 t with
  | some v => 0 ≤ v ∧ v ≤ 1
  | none => false

/-- Spec-shape predicate (written from the spec's words, section 4.5): a
well-formed standard-shape record line `(<bbox>, <quoted-text>, <confidence>)`. -/
def specStandardShape (l : Str) : Bool :=
  match (stripPreCh '(' (trimStr l)).bind (stripSufCh ')') with
  | none => false
  | some s =>
    match findSplit2 s with
    | none => false
    | some (bboxStr, after) =>
      (parseBBox bboxStr).isSome &&
      match stripPreCh ',' (trimStr after) with
      | none => false
      | some rest0 =>
        match splitLastComma (trimStr rest0) with
        | some pr => isQuotedText (trimStr pr.1) && confTok01 (trimStr pr.2)
        | none => false

/-- Spec-shape predicate (written from the spec's words, section 4.5): a
well-formed paragraph-shape record line `[<bbox>, <quoted-text>]`. -/
def specParagraphShape (l : Str) : Bool :=
  match (stripPreCh '[' (trimStr l)).bind (stripSufCh ']') with
  | none => false
  | some s =>
    match findSplit2 s with
    | none => false
    | some (bboxStr, after) =>
      (parseBBox bboxStr).isSome &&
      match stripPreCh ',' (trimStr after) with
      | none => false
      | some rest0 => isQuotedText (trimStr rest0)

/-- A well-formed record line of either shape, per the spec's grammar. -/
def specRecordLine (l : Str) : Bool := specStandardShape l ∨ specParagraphShape l

/-- Joining a list of lines with newlines (the shape of captured stdout). -/
def unlines (ls : List Str) : Str := List.intercalate ['\n'] ls

/-- Spec-side language normalization (written from the spec's words, section
4.2): split on comma (ASCII and full-width), space, semicolon (ASCII and
full-width); trim whitespace; drop empty tokens; substitute the fixed default
pair when nothing remains. -/
def specNormalizeLanguages (raw : Str) : List Str :=
  let toks := (((splitP langSep raw).map trimStr).filter (fun t => t ≠ []))
  if toks = [] then ["ch_sim".toList, "en".toList] else toks

/-- The surviving tokens of the language split (before default substitution). -/
def langTokens (raw : Str) : List Str :=
  ((splitP langSep raw).map trimStr).filter (fun t => t ≠ [])

/-! ### Basic string lemmas -/

theorem mem_of_head? {α : Type} {l : List α} {a : α} (h : l.head? = some a) : a ∈ l := by
  cases l with
  | nil => cases h
  | cons c cs => cases h; exact List.mem_cons_self _ _

theorem dropWhile_eq_self_of_head (p : Char → Bool) (s : Str)
    (h : ∀ c, s.head? = some c → p c = false) : s.dropWhile p = s := by
  cases s with
  | nil => rfl
  | cons c cs =>
    rw [List.dropWhile_cons, h c rfl]
    simp

theorem trimStr_eq_self (s : Str) (h1 : ∀ c, s.head? = some c → isWS c = false)
    (h2 : ∀ c, s.getLast? = some c → isWS c = false) : trimStr s = s := by
  unfold trimStr
  rw [dropWhile_eq_self_of_head _ _ h1, dropWhile_eq_self_of_head, List.reverse_reverse]
  intro c hc
  rw [List.head?_reverse] at hc
  exact h2 c hc

theorem trimStr_cons_ws (c : Char) (s : Str) (h : isWS c = true) :
    trimStr (c :: s) = trimStr s := by
  unfold trimStr
  rw [List.dropWhile_cons, h]
  simp

theorem option_eq_some_getD {α : Type} (o : Option α) (d : α) (h : o.isSome = true) :
    o = some (o.getD d) := by
  cases o with
  | none => cases h
  | some a => rfl

theorem numChars_facts {c : Char} (h : c ∈ numChars) :
    isWS c = false ∧ c ≠ ']' ∧ c ≠ '[' ∧ c ≠ ',' ∧ c ≠ '(' ∧ c ≠ ')' ∧
      isQuoteCh c = false := by
  have h' : c ∈ ['0','1','2','3','4','5','6','7','8','9','-','+','.'] := by
    simpa [numChars] using h
  fin_cases h' <;> decide

theorem quote_facts {c : Char} (h : isQuoteCh c = true) :
    isWS c = false ∧ c ≠ ']' ∧ c ≠ ',' ∧ c ≠ '.' ∧ c.isDigit = false := by
  have h' : c = '\'' ∨ c = '"' := by simpa [isQuoteCh] using h
  rcases h' with rfl | rfl <;> decide

theorem numTok_facts {t : Str} (h : numTokOk t = true) :
    t ≠ [] ∧ (∀ c ∈ t, c ∈ numChars) ∧ (parseF32 t).isSome = true := by
  simpa [numTokOk] using h

theorem stripPreCh_cons (c : Char) (r : Str) : stripPreCh c (c :: r) = some r := by
  simp [stripPreCh]

theorem stripSufCh_concat (c : Char) (r : Str) : stripSufCh c (r ++ [c]) = some r := by
  unfold stripSufCh
  rw [List.reverse_append]
  simp [stripPreCh]

theorem stripPreL_append (p r : Str) : stripPreL p (p ++ r) = some r := by
  induction p with
  | nil => rfl
  | cons c cs ih => simp [stripPreL, ih]

theorem stripSufL_append (p r : Str) : stripSufL p (r ++ p) = some r := by
  unfold stripSufL
  rw [List.reverse_append, stripPreL_append]
  simp

theorem hasDB_of_no_bracket {l : Str} (h : ∀ c ∈ l, c ≠ ']') : hasDB l = false := by
  induction l with
  | nil => rfl
  | cons c cs ih =>
    simp only [hasDB, Bool.or_eq_false_iff]
    refine ⟨?_, ih (fun d hd => h d (List.mem_cons_of_mem _ hd))⟩
    simp only [decide_eq_false_iff_not]
    rintro ⟨hc, -⟩
    exact h c (List.mem_cons_self _ _) hc

theorem hasDB_append {a b : Str} (ha : hasDB a = false) (hb : hasDB b = false)
    (hj : ¬(a.getLast? = some ']' ∧ b.head? = some ']')) : hasDB (a ++ b) = false := by
  induction a with
  | nil => simpa using hb
  | cons c cs ih =>
    simp only [hasDB, Bool.or_eq_false_iff] at ha
    obtain ⟨h1, h2⟩ := ha
    simp only [List.cons_append, hasDB, Bool.or_eq_false_iff]
    constructor
    · cases cs with
      | nil =>
        simp only [List.nil_append, decide_eq_false_iff_not]
        rintro ⟨rfl, hh⟩
        exact hj ⟨rfl, hh⟩
      | cons d ds => simpa using h1
    · apply ih h2
      rintro ⟨hl, hh⟩
      apply hj
      refine ⟨?_, hh⟩
      cases cs with
      | nil => cases hl
      | cons d ds => rw [List.getLast?_cons_cons]; exact hl

theorem findSplit2_append {a b : Str} (ha : hasDB a = false)
    (hl : a.getLast? ≠ some ']') :
    findSplit2 (a ++ ']' :: ']' :: b) = some (a ++ [']', ']'], b) := by
  induction a with
  | nil => simp [findSplit2]
  | cons c cs ih =>
    simp only [hasDB, Bool.or_eq_false_iff] at ha
    obtain ⟨h1, h2⟩ := ha
    have hcs : cs.getLast? ≠ some ']' := by
      cases cs with
      | nil => simp
      | cons d ds => rw [List.getLast?_cons_cons] at hl; exact hl
    have hrec := ih h2 hcs
    have hcond : ¬(c = ']' ∧ (cs ++ ']' :: ']' :: b).head? = some ']') := by
      rintro ⟨rfl, hh⟩
      cases cs with
      | nil => simp at hl
      | cons d ds =>
        simp only [List.cons_append, List.head?_cons] at hh
        simp only [decide_eq_false_iff_not] at h1
        exact h1 ⟨by simp, by simpa using hh⟩
    calc findSplit2 ((c :: cs) ++ ']' :: ']' :: b)
        = findSplit2 (c :: (cs ++ ']' :: ']' :: b)) := by rw [List.cons_append]
      _ = (findSplit2 (cs ++ ']' :: ']' :: b)).map (fun pr => (c :: pr.1, pr.2)) := by
            rw [findSplit2, if_neg hcond]
      _ = some ((c :: cs) ++ [']', ']'], b) := by rw [hrec]; simp

theorem splitP_ne_nil (p : Char → Bool) (s : Str) : splitP p s ≠ [] := by
  cases s with
  | nil => simp [splitP]
  | cons c cs =>
    simp only [splitP]
    split <;> simp

theorem splitP_sepfree {p : Char → Bool} {l : Str} (h : ∀ c ∈ l, p c = false) :
    splitP p l = [l] := by
  induction l with
  | nil => rfl
  | cons c cs ih =>
    simp only [splitP, ih (fun d hd => h d (List.mem_cons_of_mem _ hd))]
    rw [if_neg]
    · simp
    · simp [h c (List.mem_cons_self _ _)]

theorem splitP_append_sep {p : Char → Bool} {a : Str} {c : Char} {b : Str}
    (ha : ∀ d ∈ a, p d = false) (hc : p c = true) :
    splitP p (a ++ c :: b) = a :: splitP p b := by
  induction a with
  | nil => simp [splitP, hc]
  | cons d ds ih =>
    have hrec := ih (fun e he => ha e (List.mem_cons_of_mem _ he))
    simp only [List.cons_append, splitP, hrec]
    rw [if_neg]
    · simp [hrec]
    · simp [ha d (List.mem_cons_self _ _)]

theorem splitSep_cons (c : Char) (cs : Str) :
    splitSep (c :: cs) =
      if c = ']' ∧ cs.take 3 = [',', ' ', '['] then [] :: splitSep (cs.drop 3)
      else (c :: (splitSep cs).headD []) :: (splitSep cs).tail := by
  by_cases h : c = ']' ∧ cs.take 3 = [',', ' ', '[']
  · obtain ⟨rfl, h2⟩ := h
    rw [if_pos ⟨rfl, h2⟩]
    have hta := List.take_append_drop 3 cs
    rw [h2] at hta
    conv_lhs => rw [← hta]
    exact splitSep.eq_2 _
  · rw [if_neg h]
    apply splitSep.eq_3
    intro rest hc hcs
    exact h ⟨hc, by rw [hcs]; rfl⟩

theorem splitSep_nosep {l : Str} (h : ∀ c ∈ l, c ≠ ']') : splitSep l = [l] := by
  induction l with
  | nil => rw [splitSep]
  | cons c cs ih =>
    rw [splitSep_cons, ih (fun d hd => h d (List.mem_cons_of_mem _ hd))]
    rw [if_neg]
    · simp
    · rintro ⟨rfl, -⟩
      exact h ']' (List.mem_cons_self _ _) rfl

theorem splitSep_append {a b : Str} (ha : ∀ c ∈ a, c ≠ ']') :
    splitSep (a ++ ']' :: ',' :: ' ' :: '[' :: b) = a :: splitSep b := by
  induction a with
  | nil =>
    rw [List.nil_append, splitSep_cons, if_pos]
    · simp
    · exact ⟨rfl, by simp⟩
  | cons d ds ih =>
    rw [List.cons_append, splitSep_cons, if_neg,
      ih (fun e he => ha e (List.mem_cons_of_mem _ he))]
    · simp
    · rintro ⟨rfl, -⟩
      exact ha ']' (List.mem_cons_self _ _) rfl

theorem splitLastComma_none {l : Str} (h : ∀ c ∈ l, c ≠ ',') : splitLastComma l = none := by
  induction l with
  | nil => rfl
  | cons c cs ih =>
    rw [splitLastComma, ih (fun d hd => h d (List.mem_cons_of_mem _ hd))]
    rw [if_neg (h c (List.mem_cons_self _ _))]

theorem splitLastComma_append {a b : Str} (hb : ∀ c ∈ b, c ≠ ',') :
    splitLastComma (a ++ ',' :: b) = some (a, b) := by
  induction a with
  | nil =>
    rw [List.nil_append, splitLastComma, splitLastComma_none hb, if_pos rfl]
  | cons d ds ih =>
    rw [List.cons_append, splitLastComma, ih]

theorem splitLastComma_eq_none {l : Str} (h : splitLastComma l = none) :
    ∀ c ∈ l, c ≠ ',' := by
  induction l with
  | nil => intro c hc; cases hc
  | cons c cs ih =>
    rw [splitLastComma] at h
    cases hr : splitLastComma cs with
    | some pr => rw [hr] at h; cases h
    | none =>
      rw [hr] at h
      by_cases hc : c = ','
      · rw [if_pos hc] at h; cases h
      · intro d hd
        rcases List.mem_cons.mp hd with rfl | hmem
        · exact hc
        · exact ih hr d hmem

theorem splitLastComma_some {l : Str} {pr : Str × Str} (h : splitLastComma l = some pr) :
    l = pr.1 ++ ',' :: pr.2 ∧ ∀ c ∈ pr.2, c ≠ ',' := by
  induction l generalizing pr with
  | nil => cases h
  | cons c cs ih =>
    rw [splitLastComma] at h
    cases hr : splitLastComma cs with
    | some pr' =>
      rw [hr] at h
      cases h
      obtain ⟨he, hn⟩ := ih hr
      exact ⟨by rw [List.cons_append, ← he], hn⟩
    | none =>
      rw [hr] at h
      by_cases hc : c = ','
      · rw [if_pos hc] at h
        cases h
        subst hc
        exact ⟨rfl, splitLastComma_eq_none hr⟩
      · rw [if_neg hc] at h
        cases h

/-! ### Claims about language normalization and command resolution -/

/-- Claim C8: `parse_languages` splits on ASCII comma, full-width comma,
space, ASCII semicolon and full-width semicolon, trims each token, drops empty
tokens, and substitutes the fixed two-element default list when nothing
survives; it agrees with the spec-side normalization on every input string,
and in particular an empty or separator-only string yields the default pair
and a string with duplicate separators normalizes as in the spec's example. -/
theorem parseLanguages_normalization_spec :
    (∀ raw, parseLanguages raw = specNormalizeLanguages raw) ∧
    parseLanguages [] = ["ch_sim".toList, "en".toList] ∧
    parseLanguages " , ; ， ".toList = ["ch_sim".toList, "en".toList] ∧
    parseLanguages "en,, ,fr".toList = ["en".toList, "fr".toList] :=
  ⟨fun _ => rfl, by decide, by decide, by decide⟩

/-- Claim C10: `parse_languages` performs no deduplication: whenever any token
survives the split, the result is exactly the token list, so order and
multiplicity of duplicate language codes are preserved (despite the call-site
comment speaking of collecting unique values). -/
theorem parseLanguages_preserves_order_multiplicity :
    (∀ raw, langTokens raw ≠ [] →
      parseLanguages raw = langTokens raw ∧
      ∀ l : Str, (parseLanguages raw).count l = (langTokens raw).count l) ∧
    parseLanguages "en,en,fr".toList = ["en".toList, "en".toList, "fr".toList] := by
  constructor
  · intro raw h
    have he : parseLanguages raw = langTokens raw := by
      simp only [parseLanguages, langTokens] at h ⊢
      rw [if_neg h]
    exact ⟨he, fun l => by rw [he]⟩
  · decide

/-- Witness for `parseLanguages_preserves_order_multiplicity`: the duplicate
input `en,en,fr` keeps both copies of `en` in order. -/
theorem parseLanguages_preserves_order_multiplicity_witness :
    langTokens "en,en,fr".toList ≠ [] ∧
    parseLanguages "en,en,fr".toList = langTokens "en,en,fr".toList :=
  ⟨by decide, (parseLanguages_preserves_order_multiplicity.1 "en,en,fr".toList (by decide)).1⟩

/-- Claim C7: with a non-empty explicit tool path, resolution probes the path
directly, then as an interpreter with the fixed module-launch prefix, returns
the first success, and yields nothing when both fail — for every probe oracle,
so no fallback to the bare command or the well-known interpreters can occur
even when those would succeed. -/
theorem resolveEasyocrCmd_explicit_no_fallback
    (probe : Str → List Str → Bool) (exe : Str) (h : exe ≠ []) :
    resolveEasyocrCmd probe exe =
      (if probe exe [] then some (exe, [])
       else if probe exe moduleArgs then some (exe, moduleArgs) else none) := by
  unfold resolveEasyocrCmd
  rw [if_pos h]

/-- Witness for `resolveEasyocrCmd_explicit_no_fallback`: under a probe oracle
that would accept the bare `easyocr` command, an explicit path failing both
probe forms still resolves to nothing. -/
theorem resolveEasyocrCmd_explicit_no_fallback_witness :
    ("x".toList ≠ ([] : Str)) ∧
    resolveEasyocrCmd (fun p _ => p == "easyocr".toList) "x".toList = none := by
  refine ⟨by decide, ?_⟩
  rw [resolveEasyocrCmd_explicit_no_fallback (fun p _ => p == "easyocr".toList)
    "x".toList (by decide)]
  decide

/-! ### Claims about the outcome invariant -/

/-- Claim C3 (amended): an OCR run outcome never carries both records and a
diagnostic — whenever a diagnostic is present the record list is empty — but
the outcome can be neither: a successful run whose stdout contains no record
line yields an empty record list with no diagnostic. -/
theorem runOcrSync_never_both (env : ProcEnv) (home : Option Str)
    (imagePath : Str) (st : Settings) :
    (runOcrSync env home imagePath st).lines = [] ∨
    (runOcrSync env home imagePath st).error = none := by
  rcases hres : resolveEasyocrCmd env.probe st.easyocr_exe with _ | ⟨exe, preArgs⟩
  · simp [runOcrSync, hres]
  · rcases hout : env.output exe (buildCmd home imagePath st preArgs) with e | ⟨su, o, er⟩
    · simp [runOcrSync, hres, hout]
    · cases su
      · simp [runOcrSync, hres, hout]
      · simp [runOcrSync, hres, hout]

/-- Claim C3 counterexample: with a resolvable command and a successful run
whose stdout is empty, the outcome has no records AND no diagnostic, i.e. it
is neither a non-empty record sequence nor a diagnostic message. -/
theorem runOcrSync_neither_records_nor_error :
    (runOcrSync ⟨fun _ _ => true, fun _ _ => .finished true [] []⟩ none []
        defaultSettings).lines = [] ∧
    (runOcrSync ⟨fun _ _ => true, fun _ _ => .finished true [] []⟩ none []
        defaultSettings).error = none :=
  ⟨rfl, rfl⟩

/-! ### Claims about the process runner and the argument builder -/

/-- Claim C9: given a resolved command, the process runner maps a spawn error
to a diagnostic naming the attempted program, the OS error and install
guidance; a non-zero exit to a diagnostic assembled from captured stderr
followed by stdout (a well-formed, non-empty message even when both captures
are empty); and a zero exit to the parsed records with no diagnostic, so
unparsable stdout lines never turn the run into a failure. -/
theorem runOcrSync_failure_diagnostics (env : ProcEnv) (home : Option Str)
    (imagePath : Str) (st : Settings) (exe : Str) (preArgs : List Str)
    (hres : resolveEasyocrCmd env.probe st.easyocr_exe = some (exe, preArgs)) :
    (∀ e, env.output exe (buildCmd home imagePath st preArgs) = .spawnErr e →
      runOcrSync env home imagePath st = ⟨[], some (spawnFailMsg exe e)⟩) ∧
    (∀ o er, env.output exe (buildCmd home imagePath st preArgs) = .finished false o er →
      runOcrSync env home imagePath st = ⟨[], some (exitFailMsg er o)⟩) ∧
    (∀ o er, env.output exe (buildCmd home imagePath st preArgs) = .finished true o er →
      runOcrSync env home imagePath st = ⟨parseEasyocrOutput o, none⟩) ∧
    exitFailMsg [] [] ≠ [] := by
  refine ⟨fun e he => ?_, fun o er he => ?_, fun o er he => ?_, by decide⟩ <;>
    simp [runOcrSync, hres, he]

/-- Witness for `runOcrSync_failure_diagnostics`: a tool exiting non-zero with
empty stdout and stderr yields the (still well-formed) exit diagnostic. -/
theorem runOcrSync_failure_diagnostics_witness :
    runOcrSync ⟨fun _ _ => true, fun _ _ => .finished false [] []⟩ none []
      defaultSettings = ⟨[], some (exitFailMsg [] [])⟩ :=
  ((runOcrSync_failure_diagnostics ⟨fun _ _ => true, fun _ _ => .finished false [] []⟩
    none [] defaultSettings "easyocr".toList [] rfl).2.1) [] [] rfl

theorem digitChar_isDigit {k : ℕ} (h : k < 10) : (Nat.digitChar k).isDigit = true := by
  interval_cases k <;> decide

theorem natToChars_digits (n : ℕ) : ∀ c ∈ natToChars n, c.isDigit = true := by
  induction n using Nat.strong_induction_on with
  | _ n ih =>
    by_cases h10 : n < 10
    · rw [natToChars, dif_pos h10]
      intro c hc
      simp at hc
      subst hc
      exact digitChar_isDigit h10
    · rw [natToChars, dif_neg h10]
      intro c hc
      rcases List.mem_append.mp hc with h1 | h2
      · exact ih (n / 10) (Nat.div_lt_self (by omega) (by omega)) c h1
      · simp at h2
        subst h2
        exact digitChar_isDigit (Nat.mod_lt _ (by omega))

theorem format4_shape (q : ℚ) :
    ∃ a b : Str, format4 q = a ++ '.' :: b ∧ b.length = 4 ∧ '.' ∉ a := by
  refine ⟨(if q < 0 then ['-'] else []) ++
      natToChars (((round (|q| * 10000) : ℤ).toNat) / 10000),
    pad4 (((round (|q| * 10000) : ℤ).toNat) % 10000), ?_, rfl, ?_⟩
  · simp [format4]
  · intro hmem
    rcases List.mem_append.mp hmem with h1 | h2
    · revert h1
      split <;> decide
    · have := natToChars_digits _ _ h2
      exact absurd this (by decide)

/-- Claim C6: for every configuration and image path, the argument vector is
exactly the resolved command's mandatory module-launch arguments followed by
the fixed order — language list, image path, GPU flag, workers, decoder, beam
width, batch size, the five thresholds (each rendered by the 4-decimal-place
formatter), minimum size, paragraph flag, quantize flag, margin ratio
(4-decimal formatter), the fixed `--detail 1` flag — and, only when non-empty,
the home-expanded model storage directory; booleans are serialized as the
literal tokens `True`/`False`, and the 4-decimal formatter always prints
exactly four digits after the decimal point. -/
theorem buildCmd_fixed_argument_order :
    (∀ home imagePath st preArgs,
      buildCmd home imagePath st preArgs =
        preArgs ++ ["-l".toList] ++ parseLanguages st.languages ++
        ["-f".toList, imagePath,
         "--gpu".toList, boolTok st.gpu,
         "--workers".toList, natToChars st.workers,
         "--decoder".toList, st.decoder.asStr,
         "--beamWidth".toList, natToChars st.beam_width,
         "--batch_size".toList, natToChars st.batch_size,
         "--text_threshold".toList, format4 st.text_threshold,
         "--low_text".toList, format4 st.low_text,
         "--link_threshold".toList, format4 st.link_threshold,
         "--contrast_ths".toList, format4 st.contrast_ths,
         "--adjust_contrast".toList, format4 st.adjust_contrast,
         "--min_size".toList, natToChars st.min_size,
         "--paragraph".toList, boolTok st.paragraph,
         "--quantize".toList, boolTok st.quantize,
         "--add_margin".toList, format4 st.add_margin,
         "--detail".toList, "1".toList] ++
        (if st.model_storage_directory = [] then []
         else ["--model_storage_directory".toList,
               expandHomeDir home st.model_storage_directory])) ∧
    (∀ b, boolTok b = "True".toList ∨ boolTok b = "False".toList) ∧
    (∀ q, ∃ a b : Str, format4 q = a ++ '.' :: b ∧ b.length = 4 ∧ '.' ∉ a) := by
  refine ⟨fun home imagePath st preArgs => ?_,
    fun b => by cases b <;> simp [boolTok], format4_shape⟩
  by_cases hmsd : st.model_storage_directory = []
  · simp [buildCmd, hmsd, List.append_assoc]
  · simp [buildCmd, hmsd, List.append_assoc]

/-! ### Lemmas towards the record-line parsing claims -/

theorem numTok_char_facts {t : Str} (h : numTokOk t = true) :
    ∀ c ∈ t, isWS c = false ∧ c ≠ ']' ∧ c ≠ ',' ∧ isQuoteCh c = false := by
  intro c hc
  obtain ⟨-, hall, -⟩ := numTok_facts h
  obtain ⟨w, hb, -, hcm, -, -, hq⟩ := numChars_facts (hall c hc)
  exact ⟨w, hb, hcm, hq⟩

theorem trimStr_no_ws {t : Str} (h : ∀ c ∈ t, isWS c = false) : trimStr t = t :=
  trimStr_eq_self t (fun c hc => h c (mem_of_head? hc))
    (fun c hc => h c (List.mem_of_getLast?_eq_some hc))

theorem parseF32_eq_some_qval {t : Str} (h : (parseF32 t).isSome = true) :
    parseF32 t = some (qval t) :=
  option_eq_some_getD _ 0 h

theorem parsePoint_render {x y : Str} (hx : numTokOk x = true) (hy : numTokOk y = true) :
    parsePoint (renderPoint x y) = some (qval x, qval y) := by
  have hxf := numTok_char_facts hx
  have hyf := numTok_char_facts hy
  have hxs : parseF32 x = some (qval x) := parseF32_eq_some_qval (numTok_facts hx).2.2
  have hys : parseF32 y = some (qval y) := parseF32_eq_some_qval (numTok_facts hy).2.2
  have hxt : trimStr x = x := trimStr_no_ws (fun c hc => (hxf c hc).1)
  have hyt : trimStr y = y := trimStr_no_ws (fun c hc => (hyf c hc).1)
  have hshape : renderPoint x y = x ++ ',' :: (' ' :: y) := by
    simp [renderPoint]
  have hsplit : splitP (fun c => c = ',') (x ++ ',' :: (' ' :: y)) = [x, ' ' :: y] := by
    rw [splitP_append_sep (fun d hd => by simp [(hxf d hd).2.2.1]) (by simp)]
    rw [splitP_sepfree ?_]
    intro c hc
    rcases List.mem_cons.mp hc with rfl | hm
    · simp
    · simp [(hyf c hm).2.2.1]
  simp only [parsePoint, hshape, hsplit]
  rw [hxt, trimStr_cons_ws ' ' y (by decide), hyt, hxs, hys]

theorem getLast?_append_right {α : Type} {a b : List α} (h : b ≠ []) :
    (a ++ b).getLast? = b.getLast? := by
  cases hb : b.getLast? with
  | none => exact absurd (List.getLast?_eq_none_iff.mp hb) h
  | some c => rw [List.getLast?_append, hb]; rfl

theorem getLast?_cons_of_ne_nil {α : Type} {c : α} {b : List α} (hb : b ≠ []) :
    (c :: b).getLast? = b.getLast? := by
  rw [show c :: b = [c] ++ b from rfl, getLast?_append_right hb]

theorem renderPoint_no_bracket {x y : Str} (hx : numTokOk x = true)
    (hy : numTokOk y = true) : ∀ c ∈ renderPoint x y, c ≠ ']' := by
  intro c hc
  have hxf := numTok_char_facts hx
  have hyf := numTok_char_facts hy
  rcases List.mem_append.mp hc with h12 | hy'
  · rcases List.mem_append.mp h12 with hx' | hcm
    · exact (hxf c hx').2.1
    · have : c ∈ [',', ' '] := by simpa using hcm
      fin_cases this <;> decide
  · exact (hyf c hy').2.1

theorem renderPoint_ne_nil (x y : Str) : renderPoint x y ≠ [] := by
  simp [renderPoint]

theorem renderPoint_last {x y : Str} (hy : numTokOk y = true) :
    (renderPoint x y).getLast? = y.getLast? := by
  exact getLast?_append_right (numTok_facts hy).1

theorem no_bracket_getLast? {l : Str} (h : ∀ c ∈ l, c ≠ ']') :
    l.getLast? ≠ some ']' := fun hc => h ']' (List.mem_of_getLast?_eq_some hc) rfl

theorem hasDB_append_of_no_bracket {a b : Str} (ha : ∀ c ∈ a, c ≠ ']') :
    hasDB (a ++ b) = hasDB b := by
  induction a with
  | nil => rfl
  | cons c cs ih =>
    rw [List.cons_append, hasDB, ih (fun d hd => ha d (List.mem_cons_of_mem _ hd))]
    simp [ha c (List.mem_cons_self _ _)]

theorem hasDB_sep_cons (b : Str) : hasDB (']' :: ',' :: ' ' :: '[' :: b) = hasDB b := by
  simp [hasDB]

theorem renderBBox_shape (x1 y1 x2 y2 x3 y3 x4 y4 : Str) :
    renderBBox x1 y1 x2 y2 x3 y3 x4 y4 =
      ['[', '['] ++
        ((renderPoint x1 y1 ++ ']' :: ',' :: ' ' :: '[' ::
          (renderPoint x2 y2 ++ ']' :: ',' :: ' ' :: '[' ::
          (renderPoint x3 y3 ++ ']' :: ',' :: ' ' :: '[' ::
          renderPoint x4 y4))) ++ [']', ']']) := by
  have e1 : "[[".toList = ['[', '['] := rfl
  have e2 : "]]".toList = [']', ']'] := rfl
  have e3 : sepBr = [']', ',', ' ', '['] := rfl
  simp [renderBBox, e1, e2, e3, List.append_assoc]

theorem getLast?_sep_chunk {b : Str} (hb : b ≠ []) :
    (']' :: ',' :: ' ' :: '[' :: b).getLast? = b.getLast? := by
  rw [getLast?_cons_of_ne_nil (by simp), getLast?_cons_of_ne_nil (by simp),
    getLast?_cons_of_ne_nil (by simp), getLast?_cons_of_ne_nil hb]

theorem parseBBox_render {x1 y1 x2 y2 x3 y3 x4 y4 : Str}
    (h1 : numTokOk x1 = true) (h2 : numTokOk y1 = true)
    (h3 : numTokOk x2 = true) (h4 : numTokOk y2 = true)
    (h5 : numTokOk x3 = true) (h6 : numTokOk y3 = true)
    (h7 : numTokOk x4 = true) (h8 : numTokOk y4 = true) :
    parseBBox (renderBBox x1 y1 x2 y2 x3 y3 x4 y4) =
      some (bboxVal x1 y1 x2 y2 x3 y3 x4 y4) := by
  have hp1 := renderPoint_no_bracket h1 h2
  have hp2 := renderPoint_no_bracket h3 h4
  have hp3 := renderPoint_no_bracket h5 h6
  have hp4 := renderPoint_no_bracket h7 h8
  simp only [parseBBox, renderBBox_shape, stripPreL_append, stripSufL_append,
    splitSep_append hp1, splitSep_append hp2, splitSep_append hp3,
    splitSep_nosep hp4, parsePoint_render h1 h2, parsePoint_render h3 h4,
    parsePoint_render h5 h6, parsePoint_render h7 h8, bboxVal]

theorem findSplit2_renderBBox {x1 y1 x2 y2 x3 y3 x4 y4 : Str}
    (h1 : numTokOk x1 = true) (h2 : numTokOk y1 = true)
    (h3 : numTokOk x2 = true) (h4 : numTokOk y2 = true)
    (h5 : numTokOk x3 = true) (h6 : numTokOk y3 = true)
    (h7 : numTokOk x4 = true) (h8 : numTokOk y4 = true) (tail : Str) :
    findSplit2 (renderBBox x1 y1 x2 y2 x3 y3 x4 y4 ++ tail) =
      some (renderBBox x1 y1 x2 y2 x3 y3 x4 y4, tail) := by
  have hp1 := renderPoint_no_bracket h1 h2
  have hp2 := renderPoint_no_bracket h3 h4
  have hp3 := renderPoint_no_bracket h5 h6
  have hp4 := renderPoint_no_bracket h7 h8
  have hpre : renderBBox x1 y1 x2 y2 x3 y3 x4 y4 ++ tail =
      (['[', '['] ++
        (renderPoint x1 y1 ++ ']' :: ',' :: ' ' :: '[' ::
          (renderPoint x2 y2 ++ ']' :: ',' :: ' ' :: '[' ::
          (renderPoint x3 y3 ++ ']' :: ',' :: ' ' :: '[' ::
          renderPoint x4 y4)))) ++ ']' :: ']' :: tail := by
    rw [renderBBox_shape]
    simp [List.append_assoc]
  have hdb : hasDB (['[', '['] ++
      (renderPoint x1 y1 ++ ']' :: ',' :: ' ' :: '[' ::
        (renderPoint x2 y2 ++ ']' :: ',' :: ' ' :: '[' ::
        (renderPoint x3 y3 ++ ']' :: ',' :: ' ' :: '[' ::
        renderPoint x4 y4)))) = false := by
    rw [hasDB_append_of_no_bracket (by decide),
      hasDB_append_of_no_bracket hp1, hasDB_sep_cons,
      hasDB_append_of_no_bracket hp2, hasDB_sep_cons,
      hasDB_append_of_no_bracket hp3, hasDB_sep_cons]
    exact hasDB_of_no_bracket hp4
  have hlast : (['[', '['] ++
      (renderPoint x1 y1 ++ ']' :: ',' :: ' ' :: '[' ::
        (renderPoint x2 y2 ++ ']' :: ',' :: ' ' :: '[' ::
        (renderPoint x3 y3 ++ ']' :: ',' :: ' ' :: '[' ::
        renderPoint x4 y4)))).getLast? = y4.getLast? := by
    rw [getLast?_append_right (by simp [renderPoint]),
      getLast?_append_right (by simp),
      getLast?_sep_chunk (by simp [renderPoint]),
      getLast?_append_right (by simp),
      getLast?_sep_chunk (by simp [renderPoint]),
      getLast?_append_right (by simp),
      getLast?_sep_chunk (renderPoint_ne_nil _ _),
      renderPoint_last h8]
  have hlastne : (['[', '['] ++
      (renderPoint x1 y1 ++ ']' :: ',' :: ' ' :: '[' ::
        (renderPoint x2 y2 ++ ']' :: ',' :: ' ' :: '[' ::
        (renderPoint x3 y3 ++ ']' :: ',' :: ' ' :: '[' ::
        renderPoint x4 y4)))).getLast? ≠ some ']' := by
    rw [hlast]
    exact no_bracket_getLast? (fun c hc => (numTok_char_facts h8 c hc).2.1)
  rw [hpre, findSplit2_append hdb hlastne, renderBBox_shape]
  simp [List.append_assoc]

theorem exists_getLast?_of_ne_nil {α : Type} {b : List α} (h : b ≠ []) :
    ∃ c, b.getLast? = some c := by
  cases hb : b.getLast? with
  | some c => exact ⟨c, rfl⟩
  | none => exact absurd (List.getLast?_eq_none_iff.mp hb) h

theorem parseUnsignedF_none_of_last {s : Str} {c : Char}
    (hlast : s.getLast? = some c) (hdig : c.isDigit = false) (hdot : c ≠ '.') :
    parseUnsignedF s = none := by
  have hmem : c ∈ s := List.mem_of_getLast?_eq_some hlast
  have hsplit : s.takeWhile Char.isDigit ++ s.dropWhile Char.isDigit = s :=
    List.takeWhile_append_dropWhile _ _
  cases hrest : s.dropWhile Char.isDigit with
  | nil =>
    exfalso
    rw [hrest, List.append_nil] at hsplit
    rw [← hsplit] at hmem
    have := List.mem_takeWhile_imp hmem
    rw [this] at hdig
    cases hdig
  | cons r fr =>
    simp only [parseUnsignedF, hrest]
    by_cases hr : r = '.'
    · subst hr
      rw [if_pos rfl, if_neg]
      rintro ⟨hall, -⟩
      have hlast2 : ('.' :: fr).getLast? = some c := by
        rw [← hsplit, hrest] at hlast
        rwa [getLast?_append_right (by simp)] at hlast
      cases hfr : fr with
      | nil =>
        subst hfr
        simp at hlast2
        exact hdot hlast2.symm
      | cons f fs =>
        subst hfr
        rw [getLast?_cons_of_ne_nil (by simp)] at hlast2
        have hcfr : c ∈ f :: fs := List.mem_of_getLast?_eq_some hlast2
        have := (List.all_eq_true.mp hall) c hcfr
        rw [this] at hdig
        cases hdig
    · rw [if_neg hr]

theorem parseF32_none_of_last_quote {s : Str} {c : Char}
    (hlast : s.getLast? = some c) (hq : isQuoteCh c = true) : parseF32 s = none := by
  obtain ⟨-, -, -, hdot, hdig⟩ := quote_facts hq
  unfold parseF32
  by_cases hp : s.head? = some '+'
  · rw [if_pos hp]
    obtain ⟨ys, rfl⟩ := List.head?_eq_some_iff.mp hp
    cases hys : ys with
    | nil => subst hys; rfl
    | cons a as =>
      subst hys
      rw [getLast?_cons_of_ne_nil (by simp)] at hlast
      simpa using parseUnsignedF_none_of_last hlast hdig hdot
  · rw [if_neg hp]
    by_cases hm : s.head? = some '-'
    · rw [if_pos hm]
      obtain ⟨ys, rfl⟩ := List.head?_eq_some_iff.mp hm
      cases hys : ys with
      | nil => subst hys; rfl
      | cons a as =>
        subst hys
        rw [getLast?_cons_of_ne_nil (by simp)] at hlast
        have := parseUnsignedF_none_of_last hlast hdig hdot
        simp [this]
    · rw [if_neg hm]
      exact parseUnsignedF_none_of_last hlast hdig hdot

theorem trimStr_getLast? {l : Str} {c : Char} (h : l.getLast? = some c)
    (hc : isWS c = false) : (trimStr l).getLast? = some c := by
  have hsplit : l.takeWhile isWS ++ l.dropWhile isWS = l :=
    List.takeWhile_append_dropWhile _ _
  have hdne : l.dropWhile isWS ≠ [] := by
    intro he
    rw [he, List.append_nil] at hsplit
    have hmem : c ∈ l := List.mem_of_getLast?_eq_some h
    rw [← hsplit] at hmem
    have := List.mem_takeWhile_imp hmem
    rw [this] at hc
    cases hc
  have hdl : (l.dropWhile isWS).getLast? = some c := by
    rw [← hsplit] at h
    rwa [getLast?_append_right hdne] at h
  have hrev : (l.dropWhile isWS).reverse.dropWhile isWS = (l.dropWhile isWS).reverse := by
    apply dropWhile_eq_self_of_head
    intro d hd
    rw [List.head?_reverse, hdl] at hd
    cases hd
    exact hc
  unfold trimStr
  rw [hrev, List.reverse_reverse, hdl]

theorem renderStandard_shape (bb : Str) (q : Char) (text conf : Str) :
    renderStandard bb q text conf =
      '(' :: ((bb ++ ',' :: ' ' ::
        ((q :: (text ++ [q])) ++ ',' :: ' ' :: conf)) ++ [')']) := by
  have e1 : "(".toList = ['('] := rfl
  have e2 : ")".toList = [')'] := rfl
  have e3 : ", ".toList = [',', ' '] := rfl
  simp [renderStandard, e1, e2, e3, List.append_assoc]

theorem renderParagraph_shape (bb : Str) (q : Char) (text : Str) :
    renderParagraph bb q text =
      '[' :: ((bb ++ ',' :: ' ' :: (q :: (text ++ [q]))) ++ [']']) := by
  have e1 : "[".toList = ['['] := rfl
  have e2 : "]".toList = [']'] := rfl
  have e3 : ", ".toList = [',', ' '] := rfl
  simp [renderParagraph, e1, e2, e3, List.append_assoc]

theorem parseLine_shell {input bb T : Str} {bv : BBox} {tcv : Str × ℚ} {q0 c0 : Char}
    (houter : stripOuter (trimStr input) = some (bb ++ ',' :: ' ' :: T))
    (hfs : findSplit2 (bb ++ ',' :: ' ' :: T) = some (bb, ',' :: ' ' :: T))
    (hpb : parseBBox bb = some bv)
    (hhead : T.head? = some q0) (hheadws : isWS q0 = false)
    (hlastT : T.getLast? = some c0) (hlastws : isWS c0 = false)
    (htc : (match splitLastComma T with
            | some pr =>
              match parseF32 (trimStr pr.2) with
              | some cf => (trimStr pr.1, cf)
              | none => (T, (0 : ℚ))
            | none => (T, (0 : ℚ))) = tcv) :
    parseLine input = some ⟨bv, stripQuotes tcv.1, tcv.2⟩ := by
  have hTne : T ≠ [] := by
    intro he
    rw [he] at hhead
    cases hhead
  have h1 : trimStr (',' :: ' ' :: T) = ',' :: ' ' :: T := by
    apply trimStr_eq_self
    · intro d hd
      cases hd
      decide
    · intro d hd
      rw [getLast?_cons_of_ne_nil (by simp), getLast?_cons_of_ne_nil hTne, hlastT] at hd
      cases hd
      exact hlastws
  have h2 : trimStr (' ' :: T) = T := by
    rw [trimStr_cons_ws _ _ (by decide)]
    apply trimStr_eq_self
    · intro d hd
      rw [hhead] at hd
      cases hd
      exact hheadws
    · intro d hd
      rw [hlastT] at hd
      cases hd
      exact hlastws
  simp only [parseLine, houter, hfs, h1, stripPreCh_cons, h2, hpb, htc]

theorem parseLine_renderStandard {x1 y1 x2 y2 x3 y3 x4 y4 : Str} {q : Char}
    {text conf : Str}
    (h1 : numTokOk x1 = true) (h2 : numTokOk y1 = true)
    (h3 : numTokOk x2 = true) (h4 : numTokOk y2 = true)
    (h5 : numTokOk x3 = true) (h6 : numTokOk y3 = true)
    (h7 : numTokOk x4 = true) (h8 : numTokOk y4 = true)
    (hq : isQuoteCh q = true) (hcf : numTokOk conf = true) :
    parseLine (renderStandard (renderBBox x1 y1 x2 y2 x3 y3 x4 y4) q text conf) =
      some ⟨bboxVal x1 y1 x2 y2 x3 y3 x4 y4,
            stripQuotes (q :: (text ++ [q])), qval conf⟩ := by
  obtain ⟨hqws, -, -, -, -⟩ := quote_facts hq
  obtain ⟨hcne, -, hcsome⟩ := numTok_facts hcf
  have hcfacts := numTok_char_facts hcf
  obtain ⟨cc, hcc⟩ := exists_getLast?_of_ne_nil hcne
  have hccmem := hcfacts cc (List.mem_of_getLast?_eq_some hcc)
  have hThead : ((q :: (text ++ [q])) ++ ',' :: ' ' :: conf).head? = some q := rfl
  have hTlast : ((q :: (text ++ [q])) ++ ',' :: ' ' :: conf).getLast? = some cc := by
    rw [getLast?_append_right (by simp), getLast?_cons_of_ne_nil (by simp),
      getLast?_cons_of_ne_nil hcne, hcc]
  have htrim : trimStr (renderStandard (renderBBox x1 y1 x2 y2 x3 y3 x4 y4) q text conf) =
      renderStandard (renderBBox x1 y1 x2 y2 x3 y3 x4 y4) q text conf := by
    rw [renderStandard_shape]
    apply trimStr_eq_self
    · intro d hd
      cases hd
      decide
    · intro d hd
      rw [getLast?_cons_of_ne_nil (by simp), getLast?_append_right (by simp)] at hd
      cases hd
      decide
  have houter : stripOuter (trimStr
      (renderStandard (renderBBox x1 y1 x2 y2 x3 y3 x4 y4) q text conf)) =
      some (renderBBox x1 y1 x2 y2 x3 y3 x4 y4 ++ ',' :: ' ' ::
        ((q :: (text ++ [q])) ++ ',' :: ' ' :: conf)) := by
    rw [htrim, renderStandard_shape]
    simp only [stripOuter, stripPreCh_cons, Option.some_bind, stripSufCh_concat]
  have htq : trimStr (q :: (text ++ [q])) = q :: (text ++ [q]) := by
    apply trimStr_eq_self
    · intro d hd
      cases hd
      exact hqws
    · intro d hd
      rw [getLast?_cons_of_ne_nil (by simp), List.getLast?_concat] at hd
      cases hd
      exact hqws
  have hsl : splitLastComma ((q :: (text ++ [q])) ++ ',' :: (' ' :: conf)) =
      some (q :: (text ++ [q]), ' ' :: conf) := by
    apply splitLastComma_append
    intro d hd
    rcases List.mem_cons.mp hd with rfl | hm
    · decide
    · exact (hcfacts d hm).2.2.1
  have hpf : parseF32 (trimStr (' ' :: conf)) = some (qval conf) := by
    rw [trimStr_cons_ws _ _ (by decide),
      trimStr_no_ws (fun d hd => (hcfacts d hd).1)]
    exact parseF32_eq_some_qval hcsome
  have htc : (match splitLastComma ((q :: (text ++ [q])) ++ ',' :: ' ' :: conf) with
      | some pr =>
        match parseF32 (trimStr pr.2) with
        | some cf => (trimStr pr.1, cf)
        | none => (((q :: (text ++ [q])) ++ ',' :: ' ' :: conf), (0 : ℚ))
      | none => (((q :: (text ++ [q])) ++ ',' :: ' ' :: conf), (0 : ℚ)))
      = (q :: (text ++ [q]), qval conf) := by
    simp only [hsl, hpf, htq]
  exact parseLine_shell houter (findSplit2_renderBBox h1 h2 h3 h4 h5 h6 h7 h8 _)
    (parseBBox_render h1 h2 h3 h4 h5 h6 h7 h8) hThead hqws hTlast hccmem.1 htc

theorem parseLine_renderParagraph {x1 y1 x2 y2 x3 y3 x4 y4 : Str} {q : Char}
    {text : Str}
    (h1 : numTokOk x1 = true) (h2 : numTokOk y1 = true)
    (h3 : numTokOk x2 = true) (h4 : numTokOk y2 = true)
    (h5 : numTokOk x3 = true) (h6 : numTokOk y3 = true)
    (h7 : numTokOk x4 = true) (h8 : numTokOk y4 = true)
    (hq : isQuoteCh q = true) :
    parseLine (renderParagraph (renderBBox x1 y1 x2 y2 x3 y3 x4 y4) q text) =
      some ⟨bboxVal x1 y1 x2 y2 x3 y3 x4 y4,
            stripQuotes (q :: (text ++ [q])), 0⟩ := by
  obtain ⟨hqws, -, hqc, -, -⟩ := quote_facts hq
  have hqlast : (q :: (text ++ [q])).getLast? = some q := by
    rw [getLast?_cons_of_ne_nil (by simp), List.getLast?_concat]
  have htrim : trimStr (renderParagraph (renderBBox x1 y1 x2 y2 x3 y3 x4 y4) q text) =
      renderParagraph (renderBBox x1 y1 x2 y2 x3 y3 x4 y4) q text := by
    rw [renderParagraph_shape]
    apply trimStr_eq_self
    · intro d hd
      cases hd
      decide
    · intro d hd
      rw [getLast?_cons_of_ne_nil (by simp), getLast?_append_right (by simp)] at hd
      cases hd
      decide
  have houter : stripOuter (trimStr
      (renderParagraph (renderBBox x1 y1 x2 y2 x3 y3 x4 y4) q text)) =
      some (renderBBox x1 y1 x2 y2 x3 y3 x4 y4 ++ ',' :: ' ' ::
        (q :: (text ++ [q]))) := by
    rw [htrim, renderParagraph_shape]
    have hfail : (stripPreCh '('
        ('[' :: ((renderBBox x1 y1 x2 y2 x3 y3 x4 y4 ++ ',' :: ' ' ::
          (q :: (text ++ [q]))) ++ [']']))).bind (stripSufCh ')') = none := rfl
    simp only [stripOuter, hfail, stripPreCh_cons, Option.some_bind, stripSufCh_concat]
  have htc : (match splitLastComma (q :: (text ++ [q])) with
      | some pr =>
        match parseF32 (trimStr pr.2) with
        | some cf => (trimStr pr.1, cf)
        | none => ((q :: (text ++ [q])), (0 : ℚ))
      | none => ((q :: (text ++ [q])), (0 : ℚ)))
      = (q :: (text ++ [q]), (0 : ℚ)) := by
    cases hsl : splitLastComma (q :: (text ++ [q])) with
    | none => simp
    | some pr =>
      obtain ⟨heq, hnc⟩ := splitLastComma_some hsl
      have hpr2ne : pr.2 ≠ [] := by
        intro he
        rw [he] at heq
        have h2 : (pr.1 ++ ',' :: ([] : Str)).getLast? = some ',' := by
          rw [getLast?_append_right (by simp)]
          rfl
        rw [heq, h2] at hqlast
        cases hqlast
        exact hqc rfl
      have hpr2last : pr.2.getLast? = some q := by
        rw [heq] at hqlast
        rwa [getLast?_append_right (by simp), getLast?_cons_of_ne_nil hpr2ne] at hqlast
      have hnone : parseF32 (trimStr pr.2) = none :=
        parseF32_none_of_last_quote (trimStr_getLast? hpr2last hqws) hq
      simp [hnone]
  exact parseLine_shell houter (findSplit2_renderBBox h1 h2 h3 h4 h5 h6 h7 h8 _)
    (parseBBox_render h1 h2 h3 h4 h5 h6 h7 h8) rfl hqws hqlast hqws htc

/-! ### Claims about record-line parsing -/

/-- Claim C1 (amended): for every well-formed paragraph-shape line
`[<bbox>, '<text>']`, `parse_line` yields a record whose confidence is the
fixed sentinel 0.0 — a value that coincides with a genuine zero score rather
than being distinguishable from one. -/
theorem parseLine_paragraph_sentinel (x1 y1 x2 y2 x3 y3 x4 y4 : Str) (q : Char)
    (text : Str)
    (h1 : numTokOk x1 = true) (h2 : numTokOk y1 = true)
    (h3 : numTokOk x2 = true) (h4 : numTokOk y2 = true)
    (h5 : numTokOk x3 = true) (h6 : numTokOk y3 = true)
    (h7 : numTokOk x4 = true) (h8 : numTokOk y4 = true)
    (hq : isQuoteCh q = true) :
    (parseLine (renderParagraph (renderBBox x1 y1 x2 y2 x3 y3 x4 y4) q text)).map
      OcrLine.confidence = some 0 := by
  rw [parseLine_renderParagraph h1 h2 h3 h4 h5 h6 h7 h8 hq]
  rfl

/-- Witness for `parseLine_paragraph_sentinel` at a concrete paragraph line. -/
theorem parseLine_paragraph_sentinel_witness :
    (parseLine (renderParagraph (renderBBox "0".toList "0".toList "1".toList
      "0".toList "1".toList "1".toList "0".toList "1".toList) '\'' "a".toList)).map
      OcrLine.confidence = some 0 :=
  parseLine_paragraph_sentinel _ _ _ _ _ _ _ _ _ _ (by decide) (by decide)
    (by decide) (by decide) (by decide) (by decide) (by decide) (by decide)
    (by decide)

/-- Claim C1 counterexample: the paragraph-shape sentinel is the plain value
0.0, exactly what a standard-shape line carrying a genuine zero confidence
parses to, so the sentinel can be mistaken for a real zero score. -/
theorem parseLine_paragraph_sentinel_collision :
    (parseLine "[[[0, 0], [1, 0], [1, 1], [0, 1]], 'a']".toList).map
      OcrLine.confidence = some 0 ∧
    (parseLine "([[0, 0], [1, 0], [1, 1], [0, 1]], 'a', 0)".toList).map
      OcrLine.confidence = some 0 := by
  constructor
  · rw [show "[[[0, 0], [1, 0], [1, 1], [0, 1]], 'a']".toList =
        renderParagraph (renderBBox "0".toList "0".toList "1".toList "0".toList
          "1".toList "1".toList "0".toList "1".toList) '\'' "a".toList from by decide]
    rw [parseLine_renderParagraph (by decide) (by decide) (by decide) (by decide)
      (by decide) (by decide) (by decide) (by decide) (by decide)]
    rfl
  · rw [show "([[0, 0], [1, 0], [1, 1], [0, 1]], 'a', 0)".toList =
        renderStandard (renderBBox "0".toList "0".toList "1".toList "0".toList
          "1".toList "1".toList "0".toList "1".toList) '\'' "a".toList "0".toList
        from by decide]
    rw [parseLine_renderStandard (by decide) (by decide) (by decide) (by decide)
      (by decide) (by decide) (by decide) (by decide) (by decide) (by decide)]
    decide

/-- Claim C2 (amended): for every well-formed standard-shape line
`(<bbox>, <q><text><q>, <conf>)`, `parse_line` yields a record whose
confidence is the parsed confidence value and whose text is the quoted chunk
with ALL leading and trailing quote characters (of either kind) stripped —
not just the one matching pair; the result equals `<text>` exactly when
`<text>` itself neither starts nor ends with a quote character, internal
quote and comma characters being preserved verbatim. -/
theorem parseLine_standard_text_confidence (x1 y1 x2 y2 x3 y3 x4 y4 : Str)
    (q : Char) (text conf : Str)
    (h1 : numTokOk x1 = true) (h2 : numTokOk y1 = true)
    (h3 : numTokOk x2 = true) (h4 : numTokOk y2 = true)
    (h5 : numTokOk x3 = true) (h6 : numTokOk y3 = true)
    (h7 : numTokOk x4 = true) (h8 : numTokOk y4 = true)
    (hq : isQuoteCh q = true) (hcf : numTokOk conf = true) :
    parseLine (renderStandard (renderBBox x1 y1 x2 y2 x3 y3 x4 y4) q text conf) =
      some ⟨bboxVal x1 y1 x2 y2 x3 y3 x4 y4,
        stripQuotes (q :: (text ++ [q])), qval conf⟩ ∧
    (text ≠ [] →
      (∀ c, text.head? = some c → isQuoteCh c = false) →
      (∀ c, text.getLast? = some c → isQuoteCh c = false) →
      stripQuotes (q :: (text ++ [q])) = text) := by
  refine ⟨parseLine_renderStandard h1 h2 h3 h4 h5 h6 h7 h8 hq hcf,
    fun hne hh hl => ?_⟩
  unfold stripQuotes
  have hstep1 : (q :: (text ++ [q])).dropWhile isQuoteCh =
      (text ++ [q]).dropWhile isQuoteCh := by
    rw [List.dropWhile_cons, hq]
    simp
  have hstep2 : (text ++ [q]).dropWhile isQuoteCh = text ++ [q] := by
    apply dropWhile_eq_self_of_head
    intro d hd
    cases htx : text with
    | nil => exact absurd htx hne
    | cons a as =>
      rw [htx, List.cons_append, List.head?_cons] at hd
      injection hd with hda
      subst hda
      exact hh a (by rw [htx]; rfl)
  have hstep3 : (text ++ [q]).reverse.dropWhile isQuoteCh = text.reverse := by
    rw [List.reverse_append]
    simp only [List.reverse_cons, List.reverse_nil, List.nil_append,
      List.singleton_append]
    rw [List.dropWhile_cons, hq]
    simp only [if_true]
    apply dropWhile_eq_self_of_head
    intro d hd
    rw [List.head?_reverse] at hd
    exact hl d hd
  rw [hstep1, hstep2, hstep3, List.reverse_reverse]

/-- Witness for `parseLine_standard_text_confidence` at the line from the
repository's own unit test. -/
theorem parseLine_standard_text_confidence_witness :
    parseLine (renderStandard (renderBBox "70".toList "12".toList "268".toList
        "12".toList "268".toList "48".toList "70".toList "48".toList) '\''
        "Hello World".toList "0.9543".toList) =
      some ⟨bboxVal "70".toList "12".toList "268".toList "12".toList "268".toList
        "48".toList "70".toList "48".toList,
        stripQuotes ('\'' :: ("Hello World".toList ++ ['\''])),
        qval "0.9543".toList⟩ :=
  (parseLine_standard_text_confidence _ _ _ _ _ _ _ _ _ _ _ (by decide) (by decide)
    (by decide) (by decide) (by decide) (by decide) (by decide) (by decide)
    (by decide) (by decide)).1

/-- Claim C2 counterexample: for the well-formed line whose double-quoted text
is `'a'`, stripping exactly one matching pair of quotes would give `'a'`, but
`parse_line` strips ALL leading and trailing quote characters and yields `a`. -/
theorem parseLine_strips_all_quotes_counterexample :
    (parseLine "([[0, 0], [1, 0], [1, 1], [0, 1]], \"'a'\", 0.5)".toList).map
      OcrLine.text = some "a".toList ∧
    "a".toList ≠ "'a'".toList := by
  refine ⟨?_, by decide⟩
  rw [show "([[0, 0], [1, 0], [1, 1], [0, 1]], \"'a'\", 0.5)".toList =
      renderStandard (renderBBox "0".toList "0".toList "1".toList "0".toList
        "1".toList "1".toList "0".toList "1".toList) '"' "'a'".toList
        "0.5".toList from by decide]
  rw [parseLine_renderStandard (by decide) (by decide) (by decide) (by decide)
    (by decide) (by decide) (by decide) (by decide) (by decide) (by decide)]
  decide

/-- Claim C4 (amended): a record parsed from a well-formed standard-shape line
carries exactly the parsed value of its confidence field — hence a value in
[0,1] whenever that field's value lies in [0,1] — and a paragraph-shape line
carries the sentinel 0; but the parser performs no range validation, so a
line whose trailing field parses outside [0,1] yields a record with that
out-of-range confidence. -/
theorem parseLine_confidence_range (x1 y1 x2 y2 x3 y3 x4 y4 : Str) (q : Char)
    (text conf : Str)
    (h1 : numTokOk x1 = true) (h2 : numTokOk y1 = true)
    (h3 : numTokOk x2 = true) (h4 : numTokOk y2 = true)
    (h5 : numTokOk x3 = true) (h6 : numTokOk y3 = true)
    (h7 : numTokOk x4 = true) (h8 : numTokOk y4 = true)
    (hq : isQuoteCh q = true) (hcf : numTokOk conf = true) :
    ((0 ≤ qval conf ∧ qval conf ≤ 1) →
      ∃ rec, parseLine (renderStandard (renderBBox x1 y1 x2 y2 x3 y3 x4 y4)
          q text conf) = some rec ∧ 0 ≤ rec.confidence ∧ rec.confidence ≤ 1) ∧
    ((parseLine (renderParagraph (renderBBox x1 y1 x2 y2 x3 y3 x4 y4) q text)).map
      OcrLine.confidence = some 0) := by
  constructor
  · rintro ⟨hge, hle⟩
    exact ⟨_, parseLine_renderStandard h1 h2 h3 h4 h5 h6 h7 h8 hq hcf, hge, hle⟩
  · rw [parseLine_renderParagraph h1 h2 h3 h4 h5 h6 h7 h8 hq]
    rfl

/-- Witness for `parseLine_confidence_range` at a concrete line with
confidence field `1`. -/
theorem parseLine_confidence_range_witness :
    0 ≤ qval "1".toList ∧ qval "1".toList ≤ 1 ∧
    ∃ rec, parseLine (renderStandard (renderBBox "0".toList "0".toList "1".toList
        "0".toList "1".toList "1".toList "0".toList "1".toList) '\'' "a".toList
        "1".toList) = some rec ∧ 0 ≤ rec.confidence ∧ rec.confidence ≤ 1 :=
  ⟨by decide, by decide,
    (parseLine_confidence_range _ _ _ _ _ _ _ _ _ _ _ (by decide) (by decide)
      (by decide) (by decide) (by decide) (by decide) (by decide) (by decide)
      (by decide) (by decide)).1 ⟨by decide, by decide⟩⟩

/-- Claim C4 counterexample: the line with trailing field `2.5` yields a
record whose confidence is 5/2 — outside [0,1] and distinct from the
sentinel 0. -/
theorem parseLine_conf_out_of_range :
    (parseLine "([[0, 0], [1, 0], [1, 1], [0, 1]], 'a', 2.5)".toList).map
      OcrLine.confidence = some (qval "2.5".toList) ∧
    qval "2.5".toList = 5/2 ∧ ¬((5 : ℚ)/2 ≤ 1) ∧ (5 : ℚ)/2 ≠ 0 := by
  refine ⟨?_, ?_, by norm_num, by norm_num⟩
  · rw [show "([[0, 0], [1, 0], [1, 1], [0, 1]], 'a', 2.5)".toList =
        renderStandard (renderBBox "0".toList "0".toList "1".toList "0".toList
          "1".toList "1".toList "0".toList "1".toList) '\'' "a".toList
          "2.5".toList from by decide]
    rw [parseLine_renderStandard (by decide) (by decide) (by decide) (by decide)
      (by decide) (by decide) (by decide) (by decide) (by decide) (by decide)]
    rfl
  · have h25 : qval "2.5".toList =
        ((2 : ℕ) : ℚ) + ((5 : ℕ) : ℚ) / (10 : ℚ) ^ (1 : ℕ) := rfl
    rw [h25]
    norm_num

/-! ### Lemmas towards the mixed-output claim -/

theorem head?_dropWhile {p : Char → Bool} {l : Str} {c : Char}
    (h : (l.dropWhile p).head? = some c) : p c = false := by
  induction l with
  | nil => cases h
  | cons a as ih =>
    rw [List.dropWhile_cons] at h
    cases hpa : p a with
    | true => rw [hpa] at h; simp at h; exact ih h
    | false =>
      rw [hpa] at h
      simp at h
      rw [← h]
      exact hpa

theorem trimStr_head_not_ws {l : Str} {c : Char} (h : (trimStr l).head? = some c) :
    isWS c = false := by
  unfold trimStr at h
  rw [List.head?_reverse] at h
  have hne : (l.dropWhile isWS).reverse.dropWhile isWS ≠ [] := by
    intro he
    rw [he] at h
    cases h
  have hsplit : ((l.dropWhile isWS).reverse.takeWhile isWS) ++
      ((l.dropWhile isWS).reverse.dropWhile isWS) = (l.dropWhile isWS).reverse :=
    List.takeWhile_append_dropWhile _ _
  have h2 : (l.dropWhile isWS).reverse.getLast? = some c := by
    rw [← hsplit, getLast?_append_right hne]
    exact h
  rw [List.getLast?_reverse] at h2
  exact head?_dropWhile h2

theorem trimStr_last_not_ws {l : Str} {c : Char} (h : (trimStr l).getLast? = some c) :
    isWS c = false := by
  unfold trimStr at h
  rw [List.getLast?_reverse] at h
  exact head?_dropWhile h

theorem trimStr_idem (l : Str) : trimStr (trimStr l) = trimStr l :=
  trimStr_eq_self _ (fun _ hc => trimStr_head_not_ws hc)
    (fun _ hc => trimStr_last_not_ws hc)

theorem stripPreCh_eq_some {c : Char} {t y : Str} (h : stripPreCh c t = some y) :
    t = c :: y := by
  cases t with
  | nil => cases h
  | cons a as =>
    simp only [stripPreCh] at h
    by_cases hac : a = c
    · rw [if_pos hac] at h
      cases h
      rw [hac]
    · rw [if_neg hac] at h
      cases h

theorem parseLine_some_of_spec {l : Str} (h : specRecordLine l = true) :
    trimStr l ≠ [] ∧ (parseLine (trimStr l)).isSome = true := by
  have hidem := trimStr_idem l
  have h' : specStandardShape l = true ∨ specParagraphShape l = true := by
    simpa [specRecordLine] using h
  rcases h' with hs | hp
  · unfold specStandardShape at hs
    cases hb : (stripPreCh '(' (trimStr l)).bind (stripSufCh ')') with
    | none => simp only [hb] at hs; exact absurd hs (by decide)
    | some s =>
      simp only [hb] at hs
      rcases hf : findSplit2 s with - | ⟨bs, af⟩
      · simp only [hf] at hs; exact absurd hs (by decide)
      · simp only [hf, Bool.and_eq_true] at hs
        obtain ⟨hbb, hrest⟩ := hs
        cases hr : stripPreCh ',' (trimStr af) with
        | none => simp only [hr] at hrest; exact absurd hrest (by decide)
        | some rest0 =>
          obtain ⟨bv, hbv⟩ : ∃ bv, parseBBox bs = some bv := by
            cases hpb : parseBBox bs with
            | none => rw [hpb] at hbb; cases hbb
            | some bv => exact ⟨bv, rfl⟩
          obtain ⟨y, hy⟩ : ∃ y, stripPreCh '(' (trimStr l) = some y := by
            cases hpc' : stripPreCh '(' (trimStr l) with
            | none => rw [hpc'] at hb; cases hb
            | some y => exact ⟨y, rfl⟩
          constructor
          · rw [stripPreCh_eq_some hy]
            simp
          · have ho : stripOuter (trimStr l) = some s := by
              unfold stripOuter
              rw [hb]
            simp only [parseLine, hidem, ho, hf, hr, hbv]
            rfl
  · unfold specParagraphShape at hp
    cases hb : (stripPreCh '[' (trimStr l)).bind (stripSufCh ']') with
    | none => simp only [hb] at hp; exact absurd hp (by decide)
    | some s =>
      simp only [hb] at hp
      rcases hf : findSplit2 s with - | ⟨bs, af⟩
      · simp only [hf] at hp; exact absurd hp (by decide)
      · simp only [hf, Bool.and_eq_true] at hp
        obtain ⟨hbb, hrest⟩ := hp
        cases hr : stripPreCh ',' (trimStr af) with
        | none => simp only [hr] at hrest; exact absurd hrest (by decide)
        | some rest0 =>
          obtain ⟨bv, hbv⟩ : ∃ bv, parseBBox bs = some bv := by
            cases hpb : parseBBox bs with
            | none => rw [hpb] at hbb; cases hbb
            | some bv => exact ⟨bv, rfl⟩
          obtain ⟨y, hy⟩ : ∃ y, stripPreCh '[' (trimStr l) = some y := by
            cases hpc' : stripPreCh '[' (trimStr l) with
            | none => rw [hpc'] at hb; cases hb
            | some y => exact ⟨y, rfl⟩
          have hteq : trimStr l = '[' :: y := stripPreCh_eq_some hy
          constructor
          · rw [hteq]
            simp
          · have hfail : (stripPreCh '(' (trimStr l)).bind (stripSufCh ')') = none := by
              rw [hteq]
              rfl
            have ho : stripOuter (trimStr l) = some s := by
              unfold stripOuter
              rw [hfail, hb]
            simp only [parseLine, hidem, ho, hf, hr, hbv]
            rfl

theorem unlines_singleton (a : Str) : unlines [a] = a := by
  simp [unlines, List.intercalate]

theorem unlines_cons_cons (a b : Str) (bs : List Str) :
    unlines (a :: b :: bs) = a ++ '\n' :: unlines (b :: bs) := by
  simp [unlines, List.intercalate]

theorem splitNL_unlines {ls : List Str} (hne : ls ≠ [])
    (hnl : ∀ l ∈ ls, '\n' ∉ l) :
    splitP (fun c => c = '\n') (unlines ls) = ls := by
  induction ls with
  | nil => exact absurd rfl hne
  | cons a as ih =>
    cases as with
    | nil =>
      rw [unlines_singleton]
      exact splitP_sepfree (fun c hc => by
        simp only [decide_eq_false_iff_not]
        intro hceq
        exact (hnl a (List.mem_cons_self _ _)) (hceq ▸ hc))
    | cons b bs =>
      rw [unlines_cons_cons,
        splitP_append_sep (fun d hd => by
          simp only [decide_eq_false_iff_not]
          intro hdeq
          exact (hnl a (List.mem_cons_self _ _)) (hdeq ▸ hd)) (by simp),
        ih (by simp) (fun l hl => hnl l (List.mem_cons_of_mem _ hl))]

theorem parseEasyocrOutput_unlines {ls : List Str}
    (hnl : ∀ l ∈ ls, '\n' ∉ l ∧ '\r' ∉ l) :
    parseEasyocrOutput (unlines ls) =
      ls.filterMap (fun l => if trimStr l = [] then none else parseLine (trimStr l)) := by
  cases hls : ls with
  | nil => rfl
  | cons a as =>
    subst hls
    have hsp : splitP (fun c => c = '\n') (unlines (a :: as)) = a :: as :=
      splitNL_unlines (by simp) (fun l hl => (hnl l hl).1)
    have hstrip : ∀ X : List Str, (∀ l ∈ X, '\r' ∉ l) →
        X.map (fun l => if l.getLast? = some '\r' then l.dropLast else l) = X := by
      intro X hX
      have hcong : ∀ l ∈ X,
          (if l.getLast? = some '\r' then l.dropLast else l) = id l := by
        intro l hl
        rw [if_neg]
        · rfl
        · intro hcr
          exact hX l hl (List.mem_of_getLast?_eq_some hcr)
      rw [List.map_congr_left hcong, List.map_id]
    obtain ⟨lp, hlp⟩ := exists_getLast?_of_ne_nil (show a :: as ≠ [] by simp)
    have hdecomp : (a :: as).dropLast ++ [lp] = a :: as :=
      List.dropLast_append_getLast? lp (by rw [hlp]; rfl)
    have hdroplr : ∀ l ∈ (a :: as).dropLast, '\r' ∉ l :=
      fun l hl => (hnl l (List.dropLast_subset _ hl)).2
    simp only [parseEasyocrOutput, linesOf, hsp, hlp]
    by_cases hlpe : lp = []
    · simp only [hlpe, if_pos rfl]
      rw [hstrip _ hdroplr]
      conv_rhs => rw [← hdecomp]
      rw [List.filterMap_append]
      simp [hlpe, trimStr]
    · simp only [if_neg hlpe]
      rw [hstrip _ hdroplr]
      conv_rhs => rw [← hdecomp]

theorem filterMap_length_of_spec (ls : List Str)
    (hok : ∀ l ∈ ls, specRecordLine l = true ∨ parseLine (trimStr l) = none) :
    (ls.filterMap (fun l => if trimStr l = [] then none
      else parseLine (trimStr l))).length =
      (ls.filter (fun l => specRecordLine l)).length := by
  induction ls with
  | nil => rfl
  | cons a as ih =>
    rw [List.filterMap_cons, List.filter_cons]
    rcases hok a (List.mem_cons_self _ _) with hrec | hnone
    · obtain ⟨hne, hsome⟩ := parseLine_some_of_spec hrec
      obtain ⟨rec, hrec'⟩ := Option.isSome_iff_exists.mp hsome
      rw [if_neg hne, hrec', hrec]
      simpa using ih (fun l hl => hok l (List.mem_cons_of_mem _ hl))
    · have hfa : (if trimStr a = [] then none else parseLine (trimStr a)) =
          (none : Option OcrLine) := by
        by_cases hte : trimStr a = []
        · rw [if_pos hte]
        · rw [if_neg hte]
          exact hnone
      have hnspec : specRecordLine a = false := by
        cases hsr : specRecordLine a with
        | false => rfl
        | true =>
          obtain ⟨-, hsome⟩ := parseLine_some_of_spec hsr
          rw [hnone] at hsome
          cases hsome
      rw [hfa, hnspec]
      simpa using ih (fun l hl => hok l (List.mem_cons_of_mem _ hl))

/-- Claim C5 (amended): for a stdout built from lines free of embedded
newline/carriage-return characters, each being either a well-formed record
line (either spec shape) or a line the parser rejects, the output parser
yields the in-order concatenation of the per-line parses — exactly one record
per well-formed record line, in source order, with rejected lines contributing
nothing and never aborting the scan.  The restriction on the noise lines is
necessary: the parser also accepts some ill-formed lines that merely resemble
records (see the counterexample), so arbitrary non-record lines can contribute
extra records. -/
theorem parseEasyocrOutput_count_and_order (ls : List Str)
    (hws : ∀ l ∈ ls, '\n' ∉ l ∧ '\r' ∉ l)
    (hok : ∀ l ∈ ls, specRecordLine l = true ∨ parseLine (trimStr l) = none) :
    parseEasyocrOutput (unlines ls) =
      ls.filterMap (fun l => if trimStr l = [] then none
        else parseLine (trimStr l)) ∧
    (parseEasyocrOutput (unlines ls)).length =
      (ls.filter (fun l => specRecordLine l)).length := by
  have hmain := parseEasyocrOutput_unlines hws
  refine ⟨hmain, ?_⟩
  rw [hmain]
  exact filterMap_length_of_spec ls hok

/-- Witness for `parseEasyocrOutput_count_and_order`: two paragraph-shape
record lines interleaved with a log line and a blank line yield exactly two
records. -/
theorem parseEasyocrOutput_count_and_order_witness :
    (parseEasyocrOutput (unlines ["Using CPU.".toList,
        "[[[0, 0], [1, 0], [1, 1], [0, 1]], 'x']".toList,
        "".toList,
        "[[[2, 0], [3, 0], [3, 1], [2, 1]], 'y']".toList])).length =
      (List.filter (fun l => specRecordLine l) ["Using CPU.".toList,
        "[[[0, 0], [1, 0], [1, 1], [0, 1]], 'x']".toList,
        "".toList,
        "[[[2, 0], [3, 0], [3, 1], [2, 1]], 'y']".toList]).length :=
  (parseEasyocrOutput_count_and_order _ (by decide) (by decide)).2

/-- Claim C5 counterexample: a line that is not a well-formed record of
either spec shape — its text chunk is unquoted — still yields a record, so
mixed input with N well-formed record lines can produce more than N records. -/
theorem parseEasyocrOutput_nonrecord_yields_record :
    specStandardShape "[[[0, 0], [1, 0], [1, 1], [0, 1]], hello]".toList = false ∧
    specParagraphShape "[[[0, 0], [1, 0], [1, 1], [0, 1]], hello]".toList = false ∧
    (parseEasyocrOutput "[[[0, 0], [1, 0], [1, 1], [0, 1]], hello]".toList).length
      = 1 :=
  ⟨by decide, by decide, by decide⟩
